import Mathlib

/-!
Verification of the Kubernetes import core of cdk8s-cli
(`packages/cdk8s-cli/lib/import/k8s.ts`): the version-token parsing, the
version comparator, the object classifier (`tryGetObjectName`), the object
index builder (`findApiObjectDefinitions`), the version selector
(`selectApiObjects`), the fatal-path `getObjectName`, and the import-spec
matcher (`ImportKubernetesApi.match`).

`parseApiTypeName` and `compareApiVersions` are imported by `k8s.ts` from
`./k8s-util`, whose source is not part of this tree; they are modelled here
from the specification (§4.1 VersionToken Parser and §4.2 Version
Comparator) and marked as such in their doc comments.
-/

/-- The Kubernetes-native identity triple `{group, version, kind}`, as read
from the `x-kubernetes-group-version-kind` vendor extension. -/
structure GroupVersionKind where
  group : String
  kind : String
  version : String
deriving DecidableEq, Repr

/-- The fragment of a JSON-Schema definition object that the importer
inspects: the optional list of GVK triples stored under the
`x-kubernetes-group-version-kind` key, and the names of the entries of the
optional `properties` object (only presence of the `metadata` property is
ever consulted; in JavaScript a present property value is an object and
hence truthy). -/
structure JSONSchema where
  xKubernetesGroupVersionKind : Option (List GroupVersionKind)
  propertyNames : Option (List String)
deriving DecidableEq, Repr

/-- Parsed identity of a schema definition name (`ApiObjectName` of
`k8s-util`). -/
structure ApiObjectName where
  basename : String
  group : String
  version : String
  fullname : String
deriving DecidableEq, Repr

/-- An `ApiObjectName` together with the raw schema subtree. -/
structure ApiObjectDefinition extends ApiObjectName where
  schema : JSONSchema
deriving DecidableEq, Repr

/-! ### Version keys and the comparator (modelled from spec §4.2) -/

/-- Numeric value of a list of decimal digit characters, most significant
first. -/
def digitsToNat (cs : List Char) : Nat :=
  cs.foldl (fun n c => n * 10 + (c.toNat - 48)) 0

/-- Modelled from the spec: §4.2 ranks a version string first by the
numeral after `v`, then by stability tier (GA with no suffix above `beta`
above `alpha`), then by the trailing numeral with a missing numeral treated
as 0. `versionKey` extracts that (major, tier, minor) triple, with tiers
encoded alpha = 0, beta = 1, GA = 2. -/
def versionKey (s : String) : Nat × Nat × Nat :=
  let l0 := s.toList
  let l := if l0.head? = some 'v' then l0.tail else l0
  let major := digitsToNat (l.takeWhile Char.isDigit)
  let rest := l.dropWhile Char.isDigit
  if rest.take 5 = ['a', 'l', 'p', 'h', 'a'] then
    (major, 0, digitsToNat ((rest.drop 5).takeWhile Char.isDigit))
  else if rest.take 4 = ['b', 'e', 't', 'a'] then
    (major, 1, digitsToNat ((rest.drop 4).takeWhile Char.isDigit))
  else
    (major, 2, 0)

/-- Lexicographic strict order on (major, tier, minor) version keys. -/
def keyLtP (a b : Nat × Nat × Nat) : Prop :=
  a.1 < b.1 ∨ (a.1 = b.1 ∧ (a.2.1 < b.2.1 ∨ (a.2.1 = b.2.1 ∧ a.2.2 < b.2.2)))

instance instDecidableKeyLtP (a b : Nat × Nat × Nat) : Decidable (keyLtP a b) := by
  unfold keyLtP
  infer_instance

/-- Modelled from the spec: §4.2 Version Comparator (`compareApiVersions`
of `k8s-util`, not in this tree). Total-order comparison of two
`ApiObjectDefinition`s by their version strings, negative when `lhs`
ranks below `rhs`. -/
def compareApiVersions (lhs rhs : ApiObjectDefinition) : Int :=
  let a := versionKey lhs.version
  let b := versionKey rhs.version
  if keyLtP a b then -1 else if keyLtP b a then 1 else 0

/-- The non-strict order induced by the comparator; `defs.sort(...)` in
`selectApiObjects` places `a` no later than `b` exactly when the comparator
is non-positive. -/
def rDef (a b : ApiObjectDefinition) : Prop := compareApiVersions a b ≤ 0

instance instDecidableRDef : DecidableRel rDef := fun a b =>
  inferInstanceAs (Decidable (compareApiVersions a b ≤ 0))

theorem keyLtP_asymm {a b : Nat × Nat × Nat} (h : keyLtP a b) : ¬ keyLtP b a := by
  obtain ⟨a1, a2, a3⟩ := a
  obtain ⟨b1, b2, b3⟩ := b
  unfold keyLtP at *
  omega

theorem keyLtP_trans' {a b c : Nat × Nat × Nat}
    (hab : ¬ keyLtP b a) (hbc : ¬ keyLtP c b) : ¬ keyLtP c a := by
  obtain ⟨a1, a2, a3⟩ := a
  obtain ⟨b1, b2, b3⟩ := b
  obtain ⟨c1, c2, c3⟩ := c
  unfold keyLtP at *
  omega

theorem compareApiVersions_neg (a b : ApiObjectDefinition) :
    compareApiVersions a b = -(compareApiVersions b a) := by
  unfold compareApiVersions
  by_cases h1 : keyLtP (versionKey a.version) (versionKey b.version) <;>
    by_cases h2 : keyLtP (versionKey b.version) (versionKey a.version) <;>
      simp [h1, h2]
  exact absurd h2 (keyLtP_asymm h1)

theorem rDef_iff (a b : ApiObjectDefinition) :
    rDef a b ↔ ¬ keyLtP (versionKey b.version) (versionKey a.version) := by
  unfold rDef compareApiVersions
  by_cases h1 : keyLtP (versionKey a.version) (versionKey b.version) <;>
    by_cases h2 : keyLtP (versionKey b.version) (versionKey a.version) <;>
      simp [h1, h2]
  exact absurd h2 (keyLtP_asymm h1)

instance instIsTotalRDef : IsTotal ApiObjectDefinition rDef := by
  constructor
  intro a b
  rw [rDef_iff, rDef_iff]
  by_cases h : keyLtP (versionKey b.version) (versionKey a.version)
  · exact Or.inr (keyLtP_asymm h)
  · exact Or.inl h

instance instIsTransRDef : IsTrans ApiObjectDefinition rDef := by
  constructor
  intro a b c hab hbc
  rw [rDef_iff] at *
  exact keyLtP_trans' hab hbc

theorem rDef_refl (a : ApiObjectDefinition) : rDef a a := by
  rw [rDef_iff]
  intro h
  exact keyLtP_asymm h h

/-! ### VersionToken parser (modelled from spec §4.1) -/

/-- Split a list of characters on every occurrence of `sep`, the semantics
of JavaScript `String.prototype.split` with a one-character separator:
the result is always non-empty, and separators at the ends produce empty
groups. -/
def splitOnChar (sep : Char) : List Char → List (List Char)
  | [] => [[]]
  | c :: cs =>
    match splitOnChar sep cs with
    | [] => [[]]
    | g :: gs => if c = sep then [] :: g :: gs else (c :: g) :: gs

/-- Join groups of characters with `.` between them (inverse of splitting
on `.`). -/
def joinDot : List (List Char) → List Char
  | [] => []
  | [g] => g
  | g :: gs => g ++ '.' :: joinDot gs

/-- Predicate: `cs` is a non-empty run of decimal digits. -/
def isNonemptyDigits (cs : List Char) : Bool :=
  !cs.isEmpty && cs.all Char.isDigit

/-- Modelled from the spec: §4.1's version-pattern for a name segment — a
leading `v` followed by a numeral, optionally followed by `alpha` or
`beta` plus a numeral. -/
def isVersionSegment (cs : List Char) : Bool :=
  match cs with
  | 'v' :: rest =>
    let ds := rest.takeWhile Char.isDigit
    let tail := rest.dropWhile Char.isDigit
    isNonemptyDigits ds &&
      (tail.isEmpty ||
        (decide (tail.take 5 = ['a', 'l', 'p', 'h', 'a']) && isNonemptyDigits (tail.drop 5)) ||
        (decide (tail.take 4 = ['b', 'e', 't', 'a']) && isNonemptyDigits (tail.drop 4)))
  | _ => false

/-- Index of the last element of `l` satisfying `p`, if any. -/
def lastIdxSat (p : α → Bool) : List α → Option Nat
  | [] => none
  | x :: xs =>
    match lastIdxSat p xs with
    | some i => some (i + 1)
    | none => if p x then some 0 else none

/-- Modelled from the spec: §4.1 VersionToken Parser (`parseApiTypeName` of
`k8s-util`, not in this tree). Splits the fully-qualified definition key on
`.`, finds the last segment matching the version-pattern, and uses
everything after it (re-joined with `.`) as `basename` and everything
before it as `group`. When no segment matches, the name is not a versioned
API type and no `ApiObjectName` is produced (per §4.1 the definition is
then simply not selected downstream). -/
def parseApiTypeName (fullname : String) : Option ApiObjectName :=
  let parts := splitOnChar '.' fullname.toList
  match lastIdxSat isVersionSegment parts with
  | none => none
  | some i =>
    some
      { basename := String.mk (joinDot (parts.drop (i + 1)))
        group := String.mk (joinDot (parts.take i))
        version := String.mk ((parts.drop i).headD [])
        fullname := fullname }

/-! ### Object classifier (`tryGetObjectName`) and `getObjectName` -/

/-- The vendor-extension key carrying the GVK triples. -/
def X_GROUP_VERSION_KIND : String := "x-kubernetes-group-version-kind"

/-- Classifier `tryGetObjectName` of `k8s.ts`: returns the first GVK triple of the
`x-kubernetes-group-version-kind` list when the list is present and
non-empty and the definition declares a `metadata` property; otherwise
returns nothing (silent skip). -/
def tryGetObjectName (d : JSONSchema) : Option GroupVersionKind :=
  match d.xKubernetesGroupVersionKind with
  | none => none
  | some objectNames =>
    match objectNames.head? with
    | none => none
    | some objectName =>
      match d.propertyNames with
      | none => none
      | some props => if props.contains "metadata" then some objectName else none

/-- The message of the error thrown by `getObjectName`. -/
def getObjectNameErrMsg (fullname : String) : String :=
  "cannot determine API object name for " ++ fullname ++
    ". schema must include a " ++ X_GROUP_VERSION_KIND ++ " key"

/-- Function `getObjectName` of `k8s.ts`: re-derives the GVK of an already selected
definition, throwing (modelled as `Except.error`) when the classifier
fails on its schema. -/
def getObjectName (apiDefinition : ApiObjectDefinition) : Except String GroupVersionKind :=
  match tryGetObjectName apiDefinition.schema with
  | none => Except.error (getObjectNameErrMsg apiDefinition.fullname)
  | some objectName => Except.ok objectName

/-! ### Object index builder (`findApiObjectDefinitions`) -/

/-- The index type of `k8s.ts` (`{ [basename: string]: ApiObjectDefinition[] }`),
modelled as an association list in key-insertion order, which is the
iteration order of `Object.values` for string keys. -/
abbrev ApiObjectDefinitions := List (String × List ApiObjectDefinition)

/-- One step of the builder loop body after classification and parsing:
`map[type.basename] = list; list.push(def)` — append to the list of an
existing key (keeping its position) or add a new key at the end. -/
def addDefinition (m : ApiObjectDefinitions) (k : String) (d : ApiObjectDefinition) :
    ApiObjectDefinitions :=
  if m.any (fun e => e.1 == k) then
    m.map (fun e => if e.1 == k then (e.1, e.2 ++ [d]) else e)
  else
    m ++ [(k, [d])]

/-- The body of the `for` loop of `findApiObjectDefinitions` for one
`(typename, def)` entry: skip when the classifier rejects, skip when the
name has no version segment (spec §4.1: not a versioned API type), else
record `{ ...type, schema: def }` under `type.basename`. -/
def buildStep (m : ApiObjectDefinitions) (typename : String) (d : JSONSchema) :
    ApiObjectDefinitions :=
  match tryGetObjectName d with
  | none => m
  | some _ =>
    match parseApiTypeName typename with
    | none => m
    | some t => addDefinition m t.basename { t with schema := d }

/-- The builder loop, iterating the schema's definitions entries in order
with accumulator `m`. -/
def buildIndex (m : ApiObjectDefinitions) : List (String × JSONSchema) → ApiObjectDefinitions
  | [] => m
  | (typename, d) :: rest => buildIndex (buildStep m typename d) rest

/-- Builder `findApiObjectDefinitions` of `k8s.ts`, applied to the `definitions`
entries of the schema document (in iteration order). -/
def findApiObjectDefinitions (defs : List (String × JSONSchema)) : ApiObjectDefinitions :=
  buildIndex [] defs

/-! ### Version selector (`selectApiObjects`) -/

/-- Options type `SelectApiObjectsOptions` of `k8s.ts`; the `include` member (a Lean
keyword, hence `includeList` here) is optional. -/
structure SelectApiObjectsOptions where
  includeList : Option (List String)
deriving DecidableEq, Repr

/-- The sort performed by `defs.sort((lhs, rhs) => compareApiVersions(lhs, rhs))`:
`Array.prototype.sort` is a stable ascending sort under the comparator,
modelled by stable insertion sort under `rDef`. -/
def sortDefs (defs : List ApiObjectDefinition) : List ApiObjectDefinition :=
  defs.insertionSort rDef

/-- The per-kind body of `selectApiObjects`: sort ascending, default to the
last element (`defs[defs.length - 1]`, `none` on an empty list, mirroring
JavaScript's `undefined`), then override with the first sorted candidate
whose fullname is in the include list, if any. -/
def selectOne (includeL : List String) (defs : List ApiObjectDefinition) :
    Option ApiObjectDefinition :=
  let sorted := sortDefs defs
  match sorted.find? (fun x => includeL.contains x.fullname) with
  | some included => some included
  | none => sorted.getLast?

/-- Selector `selectApiObjects` of `k8s.ts`: one selection per key of the index, in
key order, with `options.include ?? []` as the include list. -/
def selectApiObjects (map : ApiObjectDefinitions) (options : SelectApiObjectsOptions) :
    List (Option ApiObjectDefinition) :=
  map.map (fun e => selectOne (options.includeList.getD []) e.2)

/-! ### The import-spec matcher (`ImportKubernetesApi.match`) -/

/-- Module-level default API version of `k8s.ts`. -/
def DEFAULT_API_VERSION : String := "1.15.0"

/-- The part of `ImportSpec` (declared in `../config`, not in this tree)
that `ImportKubernetesApi.match` consults: the `source` string. -/
structure ImportSpec where
  source : String
deriving DecidableEq, Repr

/-- Options type `ImportKubernetesApiOptions` of `k8s.ts` (`include`/`exclude` renamed:
`include` is a Lean keyword). -/
structure ImportKubernetesApiOptions where
  apiVersion : String
  includeList : Option (List String)
  excludeList : Option (List String)
deriving DecidableEq, Repr

/-- Matcher `ImportKubernetesApi.match` of `k8s.ts`: no options unless the source
is exactly `k8s` or starts with `k8s@`; otherwise the API version is
`source.split('@')[1] ?? DEFAULT_API_VERSION` and `argv.include` /
`argv.exclude` are passed through. -/
def matchK8s (importSpec : ImportSpec) (argvInclude argvExclude : Option (List String)) :
    Option ImportKubernetesApiOptions :=
  let src := importSpec.source
  if src = "k8s" ∨ src.toList.take 4 = ['k', '8', 's', '@'] then
    some
      { apiVersion :=
          match (splitOnChar '@' src.toList).get? 1 with
          | some cs => String.mk cs
          | none => DEFAULT_API_VERSION
        includeList := argvInclude
        excludeList := argvExclude }
  else
    none

/-! ### Characterising the built index -/

/-- The keys of the index, in insertion order. -/
def keysOf (m : ApiObjectDefinitions) : List String := m.map Prod.fst

/-- The candidate list stored under key `k` (first occurrence), `[]` when
the key is absent. -/
def valueOf (k : String) : ApiObjectDefinitions → List ApiObjectDefinition
  | [] => []
  | e :: m => if e.1 = k then e.2 else valueOf k m

/-- Append `k` to a key list unless already present. -/
def insertKey (ks : List String) (k : String) : List String :=
  if k ∈ ks then ks else ks ++ [k]

/-- First-occurrence deduplication of a list of keys. -/
def dedupFirst (l : List String) : List String := l.foldl insertKey []

/-- The definitions accepted by the classifier (and carrying a parseable
versioned name), in discovery order, as built by the loop body of
`findApiObjectDefinitions`. -/
def acceptedCands : List (String × JSONSchema) → List ApiObjectDefinition
  | [] => []
  | (n, d) :: rest =>
    match tryGetObjectName d, parseApiTypeName n with
    | some _, some t => { t with schema := d } :: acceptedCands rest
    | _, _ => acceptedCands rest

theorem valueOf_eq_nil_of_not_mem {k : String} :
    ∀ {m : ApiObjectDefinitions}, k ∉ keysOf m → valueOf k m = []
  | [], _ => rfl
  | e :: m, h => by
    have h1 : e.1 ≠ k := by
      intro hk
      exact h (by simp [keysOf, hk.symm])
    have h2 : k ∉ keysOf m := by
      intro hk
      exact h (by simp [keysOf] at hk ⊢; exact Or.inr hk)
    simp [valueOf, h1, valueOf_eq_nil_of_not_mem h2]

theorem valueOf_append (k : String) (m₂ : ApiObjectDefinitions) :
    ∀ m₁ : ApiObjectDefinitions,
      valueOf k (m₁ ++ m₂) = if k ∈ keysOf m₁ then valueOf k m₁ else valueOf k m₂
  | [] => by simp [keysOf, valueOf]
  | e :: m₁ => by
    by_cases h : e.1 = k
    · simp [valueOf, keysOf, h]
    · have hne : ¬ k = e.1 := fun hh => h hh.symm
      have hL : valueOf k ((e :: m₁) ++ m₂) = valueOf k (m₁ ++ m₂) := by
        simp only [List.cons_append, valueOf, if_neg h]
        rfl
      have hv : valueOf k (e :: m₁) = valueOf k m₁ := by
        simp only [valueOf, if_neg h]
      have hmem : (k ∈ keysOf (e :: m₁)) ↔ (k ∈ keysOf m₁) := by
        unfold keysOf
        simp only [List.map_cons, List.mem_cons]
        constructor
        · rintro (hc | hc)
          · exact absurd hc hne
          · exact hc
        · exact Or.inr
      rw [hL, valueOf_append k m₂ m₁, hv]
      by_cases hk : k ∈ keysOf m₁
      · rw [if_pos hk, if_pos (hmem.2 hk)]
      · rw [if_neg hk, if_neg (fun hc => hk (hmem.1 hc))]

theorem mem_keysOf_iff_any {k : String} {m : ApiObjectDefinitions} :
    m.any (fun e => e.1 == k) = true ↔ k ∈ keysOf m := by
  rw [List.any_eq_true]
  constructor
  · rintro ⟨e, he, hk⟩
    exact List.mem_map.2 ⟨e, he, by simpa using hk⟩
  · intro h
    rcases List.mem_map.1 h with ⟨e, he, hk⟩
    exact ⟨e, he, by simp [hk]⟩

theorem valueOf_map_push (k k' : String) (d : ApiObjectDefinition) :
    ∀ m : ApiObjectDefinitions,
      valueOf k' (m.map (fun e => if e.1 == k then (e.1, e.2 ++ [d]) else e)) =
        if k' = k ∧ k' ∈ keysOf m then valueOf k' m ++ [d] else valueOf k' m
  | [] => by simp [valueOf, keysOf]
  | e :: m => by
    by_cases h1 : e.1 = k'
    · by_cases h2 : e.1 = k
      · have hkk : k' = k := h1 ▸ h2
        simp [valueOf, keysOf, h1, h2, hkk]
      · have hkk : ¬ k' = k := fun h => h2 (h1.trans h)
        simp [valueOf, keysOf, h1, h2, hkk]
    · have tailEq := valueOf_map_push k k' d m
      have hfst : ∀ x : String × List ApiObjectDefinition,
          ((if x.1 == k then (x.1, x.2 ++ [d]) else x) :
            String × List ApiObjectDefinition).1 = x.1 := by
        intro x
        by_cases hx : (x.1 == k) = true <;> simp [hx]
      have hmem : (k' ∈ keysOf (e :: m)) ↔ (k' ∈ keysOf m) := by
        unfold keysOf
        simp only [List.map_cons, List.mem_cons]
        constructor
        · rintro (hc | hc)
          · exact absurd hc.symm h1
          · exact hc
        · exact Or.inr
      have hv : valueOf k' (e :: m) = valueOf k' m := by
        simp only [valueOf, if_neg h1]
      rw [List.map_cons]
      simp only [valueOf]
      rw [hfst e]
      simp only [if_neg h1]
      rw [tailEq]
      by_cases h3 : k' = k ∧ k' ∈ keysOf m
      · rw [if_pos h3, if_pos ⟨h3.1, hmem.2 h3.2⟩]
      · rw [if_neg h3, if_neg (fun hc => h3 ⟨hc.1, hmem.1 hc.2⟩)]

theorem valueOf_addDefinition (m : ApiObjectDefinitions) (k k' : String)
    (d : ApiObjectDefinition) :
    valueOf k' (addDefinition m k d) = valueOf k' m ++ (if k' = k then [d] else []) := by
  unfold addDefinition
  by_cases hmem : k ∈ keysOf m
  · rw [if_pos (mem_keysOf_iff_any.2 hmem), valueOf_map_push]
    by_cases hk : k' = k
    · rw [if_pos ⟨hk, hk ▸ hmem⟩, if_pos hk]
    · rw [if_neg (fun h => hk h.1), if_neg hk, List.append_nil]
  · rw [if_neg (fun h => hmem (mem_keysOf_iff_any.1 h)), valueOf_append]
    by_cases hk' : k' ∈ keysOf m
    · have hk : ¬ k' = k := fun h => hmem (h ▸ hk')
      rw [if_pos hk', if_neg hk, List.append_nil]
    · rw [if_neg hk', valueOf_eq_nil_of_not_mem hk', List.nil_append]
      by_cases hk : k' = k
      · simp [valueOf, hk]
      · have hkk : ¬ k = k' := fun h => hk h.symm
        simp [valueOf, hkk, hk]

theorem keysOf_addDefinition (m : ApiObjectDefinitions) (k : String) (d : ApiObjectDefinition) :
    keysOf (addDefinition m k d) = insertKey (keysOf m) k := by
  unfold addDefinition insertKey
  by_cases hmem : k ∈ keysOf m
  · rw [if_pos (mem_keysOf_iff_any.2 hmem), if_pos hmem]
    unfold keysOf
    rw [List.map_map]
    congr 1
    funext e
    by_cases hx : (e.1 == k) = true <;> simp [Function.comp, hx]
  · rw [if_neg (fun h => hmem (mem_keysOf_iff_any.1 h)), if_neg hmem]
    unfold keysOf
    simp

theorem mem_insertKey {x k : String} {ks : List String} :
    x ∈ insertKey ks k ↔ x ∈ ks ∨ x = k := by
  unfold insertKey
  by_cases h : k ∈ ks
  · rw [if_pos h]
    constructor
    · exact Or.inl
    · rintro (hx | rfl)
      · exact hx
      · exact h
  · rw [if_neg h]
    simp [List.mem_append]

theorem nodup_insertKey {ks : List String} {k : String} (h : ks.Nodup) :
    (insertKey ks k).Nodup := by
  unfold insertKey
  by_cases hk : k ∈ ks
  · simpa [hk]
  · simp [hk, List.nodup_append, h]

theorem length_insertKey {ks : List String} {k : String} :
    (insertKey ks k).length ≤ ks.length + 1 := by
  unfold insertKey
  by_cases h : k ∈ ks <;> simp [h]

theorem mem_foldl_insertKey (x : String) :
    ∀ (l acc : List String), x ∈ l.foldl insertKey acc ↔ x ∈ acc ∨ x ∈ l
  | [], acc => by simp
  | k :: l, acc => by
    rw [List.foldl_cons, mem_foldl_insertKey x l (insertKey acc k), mem_insertKey]
    simp [List.mem_cons, or_assoc]

theorem nodup_foldl_insertKey :
    ∀ (l acc : List String), acc.Nodup → (l.foldl insertKey acc).Nodup
  | [], _, h => h
  | k :: l, acc, h => by
    rw [List.foldl_cons]
    exact nodup_foldl_insertKey l _ (nodup_insertKey h)

theorem length_foldl_insertKey :
    ∀ (l acc : List String), (l.foldl insertKey acc).length ≤ acc.length + l.length
  | [], acc => by simp
  | k :: l, acc => by
    rw [List.foldl_cons]
    have h1 := length_foldl_insertKey l (insertKey acc k)
    have h2 : (insertKey acc k).length ≤ acc.length + 1 := length_insertKey
    simp only [List.length_cons]
    omega

theorem valueOf_buildIndex (k : String) :
    ∀ (entries : List (String × JSONSchema)) (m : ApiObjectDefinitions),
      valueOf k (buildIndex m entries) =
        valueOf k m ++ (acceptedCands entries).filter (fun d => d.basename == k)
  | [], m => by simp [buildIndex, acceptedCands, List.filter_nil]
  | (n, d) :: rest, m => by
    simp only [buildIndex, buildStep, acceptedCands]
    cases h1 : tryGetObjectName d with
    | none =>
      simp only [h1]
      rw [valueOf_buildIndex k rest m]
    | some g =>
      cases h2 : parseApiTypeName n with
      | none =>
        simp only [h2]
        rw [valueOf_buildIndex k rest m]
      | some t =>
        simp only [h2]
        rw [valueOf_buildIndex k rest _, valueOf_addDefinition, List.filter_cons]
        by_cases hk : k = t.basename
        · have hb : (({ t with schema := d } : ApiObjectDefinition).basename == k) = true := by
            simp [hk]
          rw [if_pos hk, if_pos hb, List.append_assoc, List.singleton_append]
        · have hb : ¬ (({ t with schema := d } : ApiObjectDefinition).basename == k) = true := by
            simp
            exact fun h => hk h.symm
          rw [if_neg hk, if_neg hb, List.append_nil]

theorem keysOf_buildIndex :
    ∀ (entries : List (String × JSONSchema)) (m : ApiObjectDefinitions),
      keysOf (buildIndex m entries) =
        (acceptedCands entries).foldl (fun ks d => insertKey ks d.basename) (keysOf m)
  | [], m => by simp [buildIndex, acceptedCands]
  | (n, d) :: rest, m => by
    simp only [buildIndex, buildStep, acceptedCands]
    cases h1 : tryGetObjectName d with
    | none =>
      simp only [h1]
      rw [keysOf_buildIndex rest m]
    | some g =>
      cases h2 : parseApiTypeName n with
      | none =>
        simp only [h2]
        rw [keysOf_buildIndex rest m]
      | some t =>
        simp only [h2]
        rw [keysOf_buildIndex rest _, keysOf_addDefinition, List.foldl_cons]

theorem keysOf_findApiObjectDefinitions (entries : List (String × JSONSchema)) :
    keysOf (findApiObjectDefinitions entries) =
      dedupFirst ((acceptedCands entries).map (fun d => d.basename)) := by
  unfold findApiObjectDefinitions dedupFirst
  rw [keysOf_buildIndex, List.foldl_map]
  rfl

theorem valueOf_findApiObjectDefinitions (entries : List (String × JSONSchema)) (k : String) :
    valueOf k (findApiObjectDefinitions entries) =
      (acceptedCands entries).filter (fun d => d.basename == k) := by
  unfold findApiObjectDefinitions
  rw [valueOf_buildIndex]
  rfl

theorem nodup_keysOf_findApiObjectDefinitions (entries : List (String × JSONSchema)) :
    (keysOf (findApiObjectDefinitions entries)).Nodup := by
  rw [keysOf_findApiObjectDefinitions]
  unfold dedupFirst
  exact nodup_foldl_insertKey _ _ List.nodup_nil

theorem valueOf_of_mem_nodup :
    ∀ {m : ApiObjectDefinitions}, (keysOf m).Nodup → ∀ {e}, e ∈ m → valueOf e.1 m = e.2
  | [], _, _, h => absurd h (List.not_mem_nil _)
  | f :: m, hnd, e, h => by
    rcases List.mem_cons.1 h with rfl | hm
    · simp [valueOf]
    · have hnd' : f.1 ∉ keysOf m ∧ (keysOf m).Nodup := by
        have hk : keysOf (f :: m) = f.1 :: keysOf m := rfl
        rw [hk, List.nodup_cons] at hnd
        exact hnd
      have hne : ¬ f.1 = e.1 := fun hq => hnd'.1 (hq ▸ List.mem_map.2 ⟨e, hm, rfl⟩)
      simp only [valueOf, if_neg hne]
      exact valueOf_of_mem_nodup hnd'.2 hm

theorem built_entry (entries : List (String × JSONSchema)) :
    ∀ e ∈ findApiObjectDefinitions entries, e.2 ≠ [] ∧ ∀ d ∈ e.2, d.basename = e.1 := by
  intro e he
  have hv : e.2 = (acceptedCands entries).filter (fun d => d.basename == e.1) := by
    rw [← valueOf_findApiObjectDefinitions,
      valueOf_of_mem_nodup (nodup_keysOf_findApiObjectDefinitions entries) he]
  constructor
  · have hkey : e.1 ∈ keysOf (findApiObjectDefinitions entries) :=
      List.mem_map.2 ⟨e, he, rfl⟩
    rw [keysOf_findApiObjectDefinitions] at hkey
    unfold dedupFirst at hkey
    have hmem : e.1 ∈ (acceptedCands entries).map (fun d => d.basename) := by
      rcases (mem_foldl_insertKey e.1 _ []).1 hkey with hc | hc
      · exact absurd hc (List.not_mem_nil _)
      · exact hc
    rcases List.mem_map.1 hmem with ⟨c, hc, hcb⟩
    intro hnil
    have : c ∈ e.2 := by
      rw [hv]
      exact List.mem_filter.2 ⟨hc, by simp [hcb]⟩
    rw [hnil] at this
    exact absurd this (List.not_mem_nil _)
  · intro d hd
    rw [hv] at hd
    have := (List.mem_filter.1 hd).2
    simpa using this

/-! ### Selector lemmas -/

theorem sortDefs_perm (defs : List ApiObjectDefinition) : (sortDefs defs).Perm defs :=
  List.perm_insertionSort rDef defs

theorem sortDefs_sorted (defs : List ApiObjectDefinition) : List.Sorted rDef (sortDefs defs) :=
  List.sorted_insertionSort rDef defs

theorem sortDefs_idem (defs : List ApiObjectDefinition) :
    sortDefs (sortDefs defs) = sortDefs defs :=
  List.Sorted.insertionSort_eq (sortDefs_sorted defs)

theorem sortDefs_ne_nil {defs : List ApiObjectDefinition} (h : defs ≠ []) :
    sortDefs defs ≠ [] := by
  intro hnil
  have hlen := (sortDefs_perm defs).length_eq
  rw [hnil] at hlen
  exact h (List.length_eq_zero.1 hlen.symm)

theorem getLast?_mem' : ∀ {l : List ApiObjectDefinition} {y : ApiObjectDefinition},
    l.getLast? = some y → y ∈ l := by
  intro l y h
  cases l with
  | nil => simp at h
  | cons a l =>
    have hne : a :: l ≠ [] := by simp
    rw [List.getLast?_eq_getLast _ hne] at h
    have := Option.some.inj h
    rw [← this]
    exact List.getLast_mem hne

theorem sorted_getLast?_rel :
    ∀ (l : List ApiObjectDefinition), List.Sorted rDef l →
      ∀ x ∈ l, ∀ y, l.getLast? = some y → rDef x y
  | [], _, x, hx, _, _ => absurd hx (List.not_mem_nil x)
  | [a], _, x, hx, y, hy => by
    have hx' : x = a := by simpa using hx
    rw [List.getLast?_singleton] at hy
    have hy' := Option.some.inj hy
    rw [hx', ← hy']
    exact rDef_refl a
  | a :: b :: t, hs, x, hx, y, hy => by
    rw [List.getLast?_cons_cons] at hy
    rcases List.mem_cons.1 hx with rfl | hx'
    · exact List.rel_of_sorted_cons hs y (getLast?_mem' hy)
    · exact sorted_getLast?_rel (b :: t) hs.of_cons x hx' y hy

theorem selectOne_eq (includeL : List String) (defs : List ApiObjectDefinition) :
    selectOne includeL defs =
      match (sortDefs defs).find? (fun x => includeL.contains x.fullname) with
      | some included => some included
      | none => (sortDefs defs).getLast? := rfl

theorem selectOne_mem (includeL : List String) (defs : List ApiObjectDefinition)
    (h : defs ≠ []) : ∃ d, selectOne includeL defs = some d ∧ d ∈ defs := by
  rw [selectOne_eq]
  cases hf : (sortDefs defs).find? (fun x => includeL.contains x.fullname) with
  | some included =>
    exact ⟨included, rfl, (sortDefs_perm defs).mem_iff.1 (List.mem_of_find?_eq_some hf)⟩
  | none =>
    have hne := sortDefs_ne_nil h
    obtain ⟨y, hy⟩ := Option.isSome_iff_exists.1 (List.getLast?_isSome.2 hne)
    exact ⟨y, hy, (sortDefs_perm defs).mem_iff.1 (getLast?_mem' hy)⟩

theorem selections_basenames (inc : List String) :
    ∀ (m : ApiObjectDefinitions),
      (∀ e ∈ m, e.2 ≠ [] ∧ ∀ d ∈ e.2, d.basename = e.1) →
      ((m.map (fun e => selectOne inc e.2)).filterMap id).map (fun d => d.basename) =
        m.map Prod.fst
  | [], _ => rfl
  | e :: m, h => by
    have he := h e (List.mem_cons_self e m)
    obtain ⟨d, hd, hdm⟩ := selectOne_mem inc e.2 he.1
    rw [List.map_cons, hd, List.filterMap_cons]
    simp only [id]
    rw [List.map_cons, List.map_cons, he.2 d hdm]
    congr 1
    exact selections_basenames inc m (fun f hf => h f (List.mem_cons_of_mem e hf))

/-! ### Concrete fixtures for scenarios and witnesses -/

/-- A schema shaped like a real API object: one GVK triple and a `metadata`
property. -/
def goodSchema : JSONSchema :=
  { xKubernetesGroupVersionKind :=
      some [{ group := "apps", kind := "Deployment", version := "v1" }]
    propertyNames := some ["metadata", "spec"] }

/-- A schema shaped like `io.k8s.apimachinery.pkg.apis.meta.v1.DeleteOptions`:
a GVK annotation but no `metadata` property. -/
def deleteOptionsSchema : JSONSchema :=
  { xKubernetesGroupVersionKind :=
      some [{ group := "", kind := "DeleteOptions", version := "v1" }]
    propertyNames := some ["apiVersion", "kind"] }

/-- A `Deployment` candidate of the given version for the scenarios. -/
def depDef (v : String) : ApiObjectDefinition :=
  { basename := "Deployment", group := "io.k8s.api.apps", version := v
    fullname := "io.k8s.api.apps." ++ v ++ ".Deployment", schema := goodSchema }

/-- The definition recorded by the builder for
`io.k8s.api.apps.v1.Deployment`. -/
def depV1Def : ApiObjectDefinition :=
  { basename := "Deployment", group := "io.k8s.api.apps", version := "v1"
    fullname := "io.k8s.api.apps.v1.Deployment", schema := goodSchema }

/-! ### Splitting lemmas for the matcher -/

theorem splitOnChar_ne_nil (sep : Char) : ∀ l : List Char, splitOnChar sep l ≠ []
  | [] => by simp [splitOnChar]
  | c :: cs => by
    simp only [splitOnChar]
    cases h : splitOnChar sep cs with
    | nil => simp
    | cons g gs =>
      by_cases hc : c = sep <;> simp [hc]

theorem splitOnChar_no_sep {sep : Char} : ∀ {l : List Char}, sep ∉ l → splitOnChar sep l = [l]
  | [], _ => rfl
  | c :: cs, h => by
    have hc : ¬ c = sep := fun hh => h (hh ▸ List.mem_cons_self c cs)
    have hrest : splitOnChar sep cs = [cs] :=
      splitOnChar_no_sep (fun hm => h (List.mem_cons_of_mem c hm))
    simp only [splitOnChar, hrest, if_neg hc]

theorem splitOnChar_sep_cons (sep : Char) (l : List Char) :
    splitOnChar sep (sep :: l) = [] :: splitOnChar sep l := by
  simp only [splitOnChar]
  cases h : splitOnChar sep l with
  | nil => exact absurd h (splitOnChar_ne_nil sep l)
  | cons g gs => simp

theorem splitOnChar_cons_of_eq {sep c : Char} {l : List Char} {g : List Char}
    {gs : List (List Char)} (hc : c ≠ sep) (hs : splitOnChar sep l = g :: gs) :
    splitOnChar sep (c :: l) = (c :: g) :: gs := by
  simp only [splitOnChar, hs, if_neg hc]

theorem splitOnChar_k8sAt (xs : List Char) :
    splitOnChar '@' ('k' :: '8' :: 's' :: '@' :: xs) =
      ['k', '8', 's'] :: splitOnChar '@' xs := by
  have h1 := splitOnChar_sep_cons '@' xs
  have h2 := splitOnChar_cons_of_eq (show 's' ≠ '@' by decide) h1
  have h3 := splitOnChar_cons_of_eq (show '8' ≠ '@' by decide) h2
  exact splitOnChar_cons_of_eq (show 'k' ≠ '@' by decide) h3

theorem toList_append (a b : String) : (a ++ b).toList = a.toList ++ b.toList :=
  String.data_append a b

theorem stringMk_toList (s : String) : String.mk s.toList = s := by
  cases s
  rfl

/-! ### The claims -/

theorem keyLtP_trans {a b c : Nat × Nat × Nat} (h1 : keyLtP a b) (h2 : keyLtP b c) :
    keyLtP a c := by
  obtain ⟨a1, a2, a3⟩ := a
  obtain ⟨b1, b2, b3⟩ := b
  obtain ⟨c1, c2, c3⟩ := c
  unfold keyLtP at *
  omega

theorem compareApiVersions_lt_iff (a b : ApiObjectDefinition) :
    compareApiVersions a b < 0 ↔ keyLtP (versionKey a.version) (versionKey b.version) := by
  unfold compareApiVersions
  by_cases h1 : keyLtP (versionKey a.version) (versionKey b.version) <;>
    by_cases h2 : keyLtP (versionKey b.version) (versionKey a.version) <;>
      simp [h1, h2]

/-- C4: `compareApiVersions` is a total order on version strings: it ranks
first by the numeral after `v`, then by stability tier (GA with no suffix
above `beta` above `alpha`), then by the trailing numeral with a missing
numeral treated as 0 (the lexicographic order of `versionKey`); it
satisfies `compare(a,b) = -compare(b,a)` for every pair, is transitive, is
total, and orders `v2 > v1beta1 > v1alpha3 > v1alpha1`. -/
theorem compareApiVersions_total_order :
    (∀ a b : ApiObjectDefinition, compareApiVersions a b = -(compareApiVersions b a))
    ∧ (∀ a b c : ApiObjectDefinition,
        compareApiVersions a b < 0 → compareApiVersions b c < 0 →
          compareApiVersions a c < 0)
    ∧ (∀ a b : ApiObjectDefinition,
        compareApiVersions a b < 0 ∨ compareApiVersions a b = 0 ∨
          compareApiVersions b a < 0)
    ∧ (∀ a b : ApiObjectDefinition,
        compareApiVersions a b < 0 ↔
          keyLtP (versionKey a.version) (versionKey b.version))
    ∧ 0 < compareApiVersions (depDef "v2") (depDef "v1beta1")
    ∧ 0 < compareApiVersions (depDef "v1beta1") (depDef "v1alpha3")
    ∧ 0 < compareApiVersions (depDef "v1alpha3") (depDef "v1alpha1") := by
  refine ⟨compareApiVersions_neg, ?_, ?_, compareApiVersions_lt_iff, by decide, by decide,
    by decide⟩
  · intro a b c hab hbc
    rw [compareApiVersions_lt_iff] at *
    exact keyLtP_trans hab hbc
  · intro a b
    by_cases h1 : keyLtP (versionKey a.version) (versionKey b.version)
    · exact Or.inl ((compareApiVersions_lt_iff a b).2 h1)
    · by_cases h2 : keyLtP (versionKey b.version) (versionKey a.version)
      · exact Or.inr (Or.inr ((compareApiVersions_lt_iff b a).2 h2))
      · refine Or.inr (Or.inl ?_)
        unfold compareApiVersions
        simp [h1, h2]

/-- Witness for C4: the transitivity component applied at the concrete
versions `v1alpha1 < v1alpha3 < v1beta1`. -/
theorem compareApiVersions_total_order_witness :
    compareApiVersions (depDef "v1alpha1") (depDef "v1beta1") < 0 :=
  compareApiVersions_total_order.2.1 (depDef "v1alpha1") (depDef "v1alpha3")
    (depDef "v1beta1") (by decide) (by decide)

theorem contains_iff (l : List String) (a : String) : l.contains a = true ↔ a ∈ l :=
  List.elem_iff

/-- C2: when no candidate of a kind is named by the include list (in
particular with an empty include list), `selectOne` — the per-kind body of
`selectApiObjects` — returns the last element of the candidate list sorted
ascending with `compareApiVersions`, which is a maximum under the
comparator; in the scenario with candidates `v1beta1` and `v1` of
`Deployment` and no include list, the selection is the `v1` candidate. -/
theorem selectApiObjects_default_latest :
    (∀ (includeL : List String) (defs : List ApiObjectDefinition),
        defs ≠ [] → (∀ d ∈ defs, d.fullname ∉ includeL) →
        selectOne includeL defs = (sortDefs defs).getLast?
        ∧ ∃ sel, selectOne includeL defs = some sel ∧ sel ∈ defs ∧
            ∀ d ∈ defs, compareApiVersions d sel ≤ 0)
    ∧ selectOne [] [depDef "v1beta1", depDef "v1"] = some (depDef "v1") := by
  constructor
  · intro inc defs hne hno
    have hf : (sortDefs defs).find? (fun x => inc.contains x.fullname) = none := by
      rw [List.find?_eq_none]
      intro x hx hc
      exact hno x ((sortDefs_perm defs).mem_iff.1 hx) ((contains_iff inc x.fullname).1 hc)
    have hsel : selectOne inc defs = (sortDefs defs).getLast? := by
      rw [selectOne_eq, hf]
    refine ⟨hsel, ?_⟩
    obtain ⟨y, hy⟩ :=
      Option.isSome_iff_exists.1 (List.getLast?_isSome.2 (sortDefs_ne_nil hne))
    refine ⟨y, by rw [hsel, hy], (sortDefs_perm defs).mem_iff.1 (getLast?_mem' hy), ?_⟩
    intro d hd
    exact sorted_getLast?_rel (sortDefs defs) (sortDefs_sorted defs) d
      ((sortDefs_perm defs).mem_iff.2 hd) y hy
  · decide

/-- Witness for C2: the universally quantified component applied to the
two-candidate `Deployment` list with an empty include list. -/
theorem selectApiObjects_default_latest_witness :
    selectOne [] [depDef "v1beta1", depDef "v1"] =
      (sortDefs [depDef "v1beta1", depDef "v1"]).getLast? :=
  (selectApiObjects_default_latest.1 [] [depDef "v1beta1", depDef "v1"]
    (by decide) (by decide)).1

/-- C3: if the include list contains the fullname of exactly one candidate
of a kind, the selection for that kind is that candidate, regardless of its
comparator rank; and whenever at least one candidate is named, the
selection is the first match in the ascending sorted candidate order. -/
theorem selectApiObjects_include_override :
    (∀ (includeL : List String) (defs : List ApiObjectDefinition)
        (d : ApiObjectDefinition),
        d ∈ defs → d.fullname ∈ includeL →
        (∀ d' ∈ defs, d'.fullname ∈ includeL → d' = d) →
        selectOne includeL defs = some d)
    ∧ (∀ (includeL : List String) (defs : List ApiObjectDefinition)
        (d : ApiObjectDefinition),
        d ∈ defs → d.fullname ∈ includeL →
        selectOne includeL defs =
          (sortDefs defs).find? (fun x => includeL.contains x.fullname)) := by
  constructor
  · intro inc defs d hd hdinc huniq
    have hex : ∃ x ∈ sortDefs defs, (inc.contains x.fullname) = true :=
      ⟨d, (sortDefs_perm defs).mem_iff.2 hd, (contains_iff inc d.fullname).2 hdinc⟩
    obtain ⟨e, he⟩ := Option.isSome_iff_exists.1 (List.find?_isSome.2 hex)
    have hpe := List.find?_some he
    have hed : e = d :=
      huniq e ((sortDefs_perm defs).mem_iff.1 (List.mem_of_find?_eq_some he))
        ((contains_iff inc e.fullname).1 hpe)
    rw [selectOne_eq, he, hed]
  · intro inc defs d hd hdinc
    have hex : ∃ x ∈ sortDefs defs, (inc.contains x.fullname) = true :=
      ⟨d, (sortDefs_perm defs).mem_iff.2 hd, (contains_iff inc d.fullname).2 hdinc⟩
    obtain ⟨e, he⟩ := Option.isSome_iff_exists.1 (List.find?_isSome.2 hex)
    rw [selectOne_eq, he]

/-- Witness for C3: the override component applied to the spec's scenario —
include list `["io.k8s.api.apps.v1beta1.Deployment"]` overrides the default
`v1` selection with the `v1beta1` candidate. -/
theorem selectApiObjects_include_override_witness :
    selectOne ["io.k8s.api.apps.v1beta1.Deployment"] [depDef "v1beta1", depDef "v1"] =
      some (depDef "v1beta1") :=
  selectApiObjects_include_override.1 ["io.k8s.api.apps.v1beta1.Deployment"]
    [depDef "v1beta1", depDef "v1"] (depDef "v1beta1") (by decide) (by decide) (by decide)

/-- C1: for every index produced by `findApiObjectDefinitions` and every
include list, `selectApiObjects` returns exactly one definition per key of
the index: the result has one entry per key, the selections' basenames are
exactly the keys (so no kind is dropped), and the keys carry no duplicates
(so no kind is duplicated). -/
theorem selectApiObjects_exactly_one_per_kind
    (entries : List (String × JSONSchema)) (options : SelectApiObjectsOptions) :
    (selectApiObjects (findApiObjectDefinitions entries) options).length =
        (findApiObjectDefinitions entries).length
    ∧ ((selectApiObjects (findApiObjectDefinitions entries) options).filterMap id).map
        (fun d => d.basename) = keysOf (findApiObjectDefinitions entries)
    ∧ (keysOf (findApiObjectDefinitions entries)).Nodup := by
  refine ⟨?_, ?_, nodup_keysOf_findApiObjectDefinitions entries⟩
  · unfold selectApiObjects
    rw [List.length_map]
  · unfold selectApiObjects keysOf
    exact selections_basenames _ _ (built_entry entries)

/-- The in-place effect of the first `selectApiObjects` run on the index:
every candidate list has been sorted by `Array.prototype.sort`. -/
def sortIndex (m : ApiObjectDefinitions) : ApiObjectDefinitions :=
  m.map (fun e => (e.1, sortDefs e.2))

theorem selectOne_sortDefs (inc : List String) (defs : List ApiObjectDefinition) :
    selectOne inc (sortDefs defs) = selectOne inc defs := by
  rw [selectOne_eq, selectOne_eq, sortDefs_idem]

/-- C7: selection is a pure function of index plus include list — running
`selectApiObjects` twice on the same index and options yields identical
selections, and this also holds across the in-place sort the first run
leaves behind (`sortIndex`). -/
theorem selectApiObjects_idempotent (m : ApiObjectDefinitions)
    (options : SelectApiObjectsOptions) :
    selectApiObjects m options = selectApiObjects m options
    ∧ selectApiObjects (sortIndex m) options = selectApiObjects m options := by
  refine ⟨rfl, ?_⟩
  unfold selectApiObjects sortIndex
  rw [List.map_map]
  congr 1
  funext e
  exact selectOne_sortDefs _ e.2

/-- C9: every candidate list of a builder-produced index is non-empty, so
the selector's `defs[defs.length - 1]` access is defined (`isSome`) for
every key; on an empty index the selection is empty. -/
theorem findApiObjectDefinitions_safe
    (entries : List (String × JSONSchema)) (options : SelectApiObjectsOptions) :
    (∀ e ∈ findApiObjectDefinitions entries,
        e.2 ≠ [] ∧ (selectOne (options.includeList.getD []) e.2).isSome = true)
    ∧ selectApiObjects [] options = [] := by
  constructor
  · intro e he
    have h1 := (built_entry entries e he).1
    obtain ⟨d, hd, _⟩ := selectOne_mem _ e.2 h1
    exact ⟨h1, by rw [hd]; rfl⟩
  · rfl

/-- Witness for C9: the index built from the single `Deployment` entry has
the non-empty list `[depV1Def]` under its only key, and selection on it is
defined; the empty index yields the empty selection. -/
theorem findApiObjectDefinitions_safe_witness :
    (([depV1Def] : List ApiObjectDefinition) ≠ []
        ∧ (selectOne [] [depV1Def]).isSome = true)
    ∧ selectApiObjects [] ⟨none⟩ = [] :=
  ⟨(findApiObjectDefinitions_safe [("io.k8s.api.apps.v1.Deployment", goodSchema)]
      ⟨none⟩).1 ("Deployment", [depV1Def]) (by decide),
    (findApiObjectDefinitions_safe [] ⟨none⟩).2⟩

/-- The truthiness of `def.properties?.metadata` in the classifier: the
definition declares a `metadata` entry among its schema properties. -/
def hasMetadataProp (d : JSONSchema) : Bool :=
  match d.propertyNames with
  | none => false
  | some props => props.contains "metadata"

/-- C5: the classifier returns a GVK iff the definition carries the
`x-kubernetes-group-version-kind` extension with at least one triple and
declares a `metadata` property; the returned GVK is the first triple of the
list; when either condition fails it returns nothing, and such a
definition contributes no index entry. -/
theorem tryGetObjectName_spec :
    (∀ (d : JSONSchema) (g : GroupVersionKind),
        tryGetObjectName d = some g ↔
          (∃ l, d.xKubernetesGroupVersionKind = some l ∧ l.head? = some g)
          ∧ hasMetadataProp d = true)
    ∧ (∀ (n : String) (d : JSONSchema), hasMetadataProp d = false →
        tryGetObjectName d = none ∧ findApiObjectDefinitions [(n, d)] = []) := by
  have hnone : ∀ d : JSONSchema, hasMetadataProp d = false → tryGetObjectName d = none := by
    intro d hm
    unfold hasMetadataProp at hm
    unfold tryGetObjectName
    cases hx : d.xKubernetesGroupVersionKind with
    | none => rfl
    | some objectNames =>
      cases hh : objectNames.head? with
      | none => simp [hh]
      | some objectName =>
        cases hp : d.propertyNames with
        | none => simp [hh, hp]
        | some props =>
          rw [hp] at hm
          simp only [] at hm
          simp at hm
          simp [hh, hp, hm]
  constructor
  · intro d g
    unfold tryGetObjectName hasMetadataProp
    cases hx : d.xKubernetesGroupVersionKind with
    | none => simp
    | some objectNames =>
      cases hh : objectNames.head? with
      | none => simp [hh]
      | some objectName =>
        cases hp : d.propertyNames with
        | none => simp [hh]
        | some props =>
          by_cases hc : "metadata" ∈ props
          · simp [hh, hc, eq_comm]
          · simp [hh, hc]
  · intro n d hm
    have ht := hnone d hm
    refine ⟨ht, ?_⟩
    unfold findApiObjectDefinitions
    simp only [buildIndex, buildStep, ht]

/-- Witness for C5: a `DeleteOptions`-shaped definition with a GVK
annotation but no `metadata` property is rejected by the classifier and
yields an empty index. -/
theorem tryGetObjectName_spec_witness :
    tryGetObjectName deleteOptionsSchema = none
    ∧ findApiObjectDefinitions
        [("io.k8s.apimachinery.pkg.apis.meta.v1.DeleteOptions", deleteOptionsSchema)] =
      [] :=
  tryGetObjectName_spec.2 "io.k8s.apimachinery.pkg.apis.meta.v1.DeleteOptions"
    deleteOptionsSchema (by decide)

/-- C6: the index built by `findApiObjectDefinitions` has as keys exactly
the basenames of the accepted definitions (first-occurrence order, no
duplicates), each key holding every accepted candidate with that basename
in discovery order; rejected definitions contribute nothing, so the number
of keys is at most the number of accepted definitions. -/
theorem findApiObjectDefinitions_groups_by_basename
    (entries : List (String × JSONSchema)) :
    keysOf (findApiObjectDefinitions entries) =
        dedupFirst ((acceptedCands entries).map (fun d => d.basename))
    ∧ (∀ k, valueOf k (findApiObjectDefinitions entries) =
        (acceptedCands entries).filter (fun d => d.basename == k))
    ∧ (findApiObjectDefinitions entries).length ≤ (acceptedCands entries).length := by
  refine ⟨keysOf_findApiObjectDefinitions entries,
    fun k => valueOf_findApiObjectDefinitions entries k, ?_⟩
  have h1 : (findApiObjectDefinitions entries).length =
      (keysOf (findApiObjectDefinitions entries)).length := (List.length_map _ _).symm
  rw [h1, keysOf_findApiObjectDefinitions]
  unfold dedupFirst
  have h2 := length_foldl_insertKey ((acceptedCands entries).map (fun d => d.basename)) []
  rw [List.length_map] at h2
  simpa using h2

/-- The `DeleteOptions`-shaped definition as it would appear after a
(hypothetical) selection, used to exercise the fatal path of
`getObjectName`. -/
def badDef : ApiObjectDefinition :=
  { basename := "DeleteOptions", group := "io.k8s.apimachinery.pkg.apis.meta"
    version := "v1", fullname := "io.k8s.apimachinery.pkg.apis.meta.v1.DeleteOptions"
    schema := deleteOptionsSchema }

/-- C8: when the classifier fails on an already-selected definition's
schema, `getObjectName` raises a fatal error whose message names the
offending type's fullname and never returns a value; in every other case
it returns the definition's first GVK triple. -/
theorem getObjectName_spec (d : ApiObjectDefinition) :
    (tryGetObjectName d.schema = none →
        getObjectName d = Except.error (getObjectNameErrMsg d.fullname)
        ∧ (∃ pre post, getObjectNameErrMsg d.fullname = pre ++ (d.fullname ++ post))
        ∧ ∀ g, getObjectName d ≠ Except.ok g)
    ∧ (∀ g, tryGetObjectName d.schema = some g →
        getObjectName d = Except.ok g
        ∧ ∃ l, d.schema.xKubernetesGroupVersionKind = some l ∧ l.head? = some g) := by
  constructor
  · intro hn
    have hg : getObjectName d = Except.error (getObjectNameErrMsg d.fullname) := by
      unfold getObjectName
      rw [hn]
    refine ⟨hg, ⟨"cannot determine API object name for ",
      ". schema must include a " ++ X_GROUP_VERSION_KIND ++ " key", ?_⟩, ?_⟩
    · unfold getObjectNameErrMsg
      simp [String.append_assoc]
    · intro g hok
      rw [hg] at hok
      exact Except.noConfusion hok
  · intro g hs
    have hg : getObjectName d = Except.ok g := by
      unfold getObjectName
      rw [hs]
    refine ⟨hg, ?_⟩
    unfold tryGetObjectName at hs
    cases hx : d.schema.xKubernetesGroupVersionKind with
    | none =>
      rw [hx] at hs
      simp at hs
    | some objectNames =>
      rw [hx] at hs
      cases hh : objectNames.head? with
      | none =>
        simp [hh] at hs
      | some objectName =>
        cases hp : d.schema.propertyNames with
        | none =>
          simp [hh, hp] at hs
        | some props =>
          by_cases hc : "metadata" ∈ props
          · simp [hh, hp, hc] at hs
            exact ⟨objectNames, rfl, by rw [hh, hs]⟩
          · simp [hh, hp, hc] at hs

/-- Witness for C8: the fatal branch at the `DeleteOptions`-shaped
definition and the success branch at the `Deployment` definition. -/
theorem getObjectName_spec_witness :
    getObjectName badDef = Except.error (getObjectNameErrMsg badDef.fullname)
    ∧ getObjectName depV1Def =
        Except.ok { group := "apps", kind := "Deployment", version := "v1" } :=
  ⟨((getObjectName_spec badDef).1 (by decide)).1,
    ((getObjectName_spec depV1Def).2
      { group := "apps", kind := "Deployment", version := "v1" } (by decide)).1⟩

/-- C10 counterexample: `"k8s@1@2"` is `"k8s@" ++ X` for `X = "1@2"`, yet
the returned apiVersion is `"1"` (the segment before the second `@`), not
`X`. -/
theorem matchK8s_counterexample :
    ("k8s@1@2" : String) = "k8s@" ++ "1@2"
    ∧ matchK8s ⟨"k8s@1@2"⟩ none none =
        some { apiVersion := "1", includeList := none, excludeList := none }
    ∧ matchK8s ⟨"k8s@1@2"⟩ none none ≠
        some { apiVersion := "1@2", includeList := none, excludeList := none } := by
  decide

/-- C10 (amended): `ImportKubernetesApi.match` returns no options when the
source is neither exactly `k8s` nor starts with `k8s@`; for source exactly
`k8s` it returns the default apiVersion `1.15.0`; and for source `k8s@X`
where `X` itself contains no `@`, it returns apiVersion `X` (when `X`
contains `@`, only the part of `X` before its first `@` is returned — see
the counterexample). -/
theorem matchK8s_spec :
    (∀ (src : String) (ai ae : Option (List String)),
        src ≠ "k8s" → (¬ ∃ rest : String, src = "k8s@" ++ rest) →
        matchK8s ⟨src⟩ ai ae = none)
    ∧ (∀ ai ae : Option (List String),
        matchK8s ⟨"k8s"⟩ ai ae =
          some { apiVersion := DEFAULT_API_VERSION, includeList := ai, excludeList := ae })
    ∧ (∀ (x : String) (ai ae : Option (List String)), '@' ∉ x.toList →
        matchK8s ⟨"k8s@" ++ x⟩ ai ae =
          some { apiVersion := x, includeList := ai, excludeList := ae }) := by
  refine ⟨?_, ?_, ?_⟩
  · intro src ai ae h1 h2
    unfold matchK8s
    rw [if_neg]
    rintro (hc | hc)
    · exact h1 hc
    · refine h2 ⟨String.mk (src.toList.drop 4), ?_⟩
      apply String.ext
      show src.data = ("k8s@" ++ String.mk (src.toList.drop 4)).data
      rw [String.data_append]
      have hk : ("k8s@" : String).data = ['k', '8', 's', '@'] := rfl
      rw [hk, ← hc]
      exact (List.take_append_drop 4 src.toList).symm
  · intro ai ae
    rfl
  · intro x ai ae hx
    have hl : (("k8s@" ++ x) : String).toList = 'k' :: '8' :: 's' :: '@' :: x.toList := by
      rw [toList_append]
      rfl
    unfold matchK8s
    rw [if_pos]
    · have hsplit : splitOnChar '@' (("k8s@" ++ x) : String).toList =
          ['k', '8', 's'] :: [x.toList] := by
        rw [hl, splitOnChar_k8sAt, splitOnChar_no_sep hx]
      rw [hsplit]
      simp only [List.get?]
      rw [stringMk_toList]
    · right
      rw [hl]
      rfl

/-- Witness for C10 (amended): the three components applied at `helm`,
`k8s` and `k8s@1.22.0`. -/
theorem matchK8s_spec_witness :
    matchK8s ⟨"helm"⟩ none none = none
    ∧ matchK8s ⟨"k8s"⟩ none none =
        some { apiVersion := DEFAULT_API_VERSION, includeList := none, excludeList := none }
    ∧ matchK8s ⟨"k8s@" ++ "1.22.0"⟩ none none =
        some { apiVersion := "1.22.0", includeList := none, excludeList := none } :=
  ⟨matchK8s_spec.1 "helm" none none (by decide)
      (by
        rintro ⟨rest, hr⟩
        have hd := congrArg String.data hr
        rw [String.data_append] at hd
        have h2 := congrArg (fun l => l.headD 'z') hd
        simp at h2),
    matchK8s_spec.2.1 none none,
    matchK8s_spec.2.2 "1.22.0" none none (by decide)⟩
